import Mathlib

/-!
Verification of the transcription relay and summarization pipeline.

This file gives a shallow embedding of the pure state transitions of the
repository's code and proves or refutes the specification's claims about
them.  Components embedded:

* the transcript coordinator of `mobile/src/hooks/useTranscription.ts`
  (`handleTranscriptMessage`, which maintains a single transcript string
  with an embedded " [interim] " marker);
* the summarization hook of the same file (`generateSummary` and the
  60-second interval callback with its `lastTranscriptRef` debounce);
* the message handling and teardown of
  `mobile/src/services/DeepgramService.ts` (`handleDeepgramMessage`,
  `stopTranscription`);
* the server's WebSocket relay (`clientWs.on('message')` forwarding and
  the `wss.on('connection')` credential check);
* the server's `/transcribe-file` message accumulation; and
* the server's `enforceSentenceLimit` post-processing of summaries.

JavaScript strings are modelled as Lean `String` / `List Char`; truthiness
of a string is emptiness, `undefined` values are `Option.none`, and the
floating-point confidence is modelled as a rational number (every JSON
number the upstream can send is a rational, and comparison with 0.5 agrees).
-/

/-- Character class of the JavaScript regular-expression class `\s` used by
`split`, `trim` and friends, restricted to the whitespace characters that
can actually occur in the data handled here (ASCII whitespace and NBSP).
Only disjointness from the sentence punctuation characters matters for the
proofs. -/
def isSpaceJS (c : Char) : Bool :=
  c == ' ' || c == '\t' || c == '\n' || c == '\r' ||
  c == '\x0b' || c == '\x0c' || c == ' '

/-- Truthiness of `text.trim()` in JavaScript, negated: a string is blank
iff it is empty or consists of whitespace only.  `!text || !text.trim()`
is equivalent to `isBlank text`. -/
def isBlank (s : String) : Bool :=
  s.toList.all isSpaceJS

/-- Transcript fragment delivered by `DeepgramService` to its callback
(interface `TranscriptMessage` of `DeepgramService.ts`). -/
structure TranscriptMessage where
  transcript : String
  isFinal : Bool
deriving DecidableEq

/-- Boolean test that the first list is an initial segment of the second
(the check JavaScript's `String.prototype.split` performs at each scan
position for a plain-string separator). -/
def leadsWith : List Char → List Char → Bool
  | [], _ => true
  | _ :: _, [] => false
  | p :: ps, c :: cs => p == c && leadsWith ps cs

/-- First occurrence of the separator `M` in a character list: returns the
segment before the first occurrence and the remainder after it, or `none`
when `M` does not occur.  `cs.split(M)[0]` in JavaScript is the first
component (or all of `cs` when there is no occurrence). -/
def splitFirst (M : List Char) : List Char → Option (List Char × List Char)
  | [] => none
  | c :: rest =>
    if leadsWith M (c :: rest) then
      some ([], List.drop M.length (c :: rest))
    else
      match splitFirst M rest with
      | some (a, b) => some (c :: a, b)
      | none => none

/-- Separator `' [interim]'` used by `handleTranscriptMessage` in
`useTranscription.ts` to strip a pending interim suffix. -/
def interimMarker : List Char := " [interim]".toList

/-- Marker `' [interim] '` (with trailing space) that the interim branch of
`handleTranscriptMessage` inserts between committed and pending text. -/
def interimMarkerSp : List Char := " [interim] ".toList

/-- Result of `prev.split(' [interim]')[0]`: the transcript text before the
first interim marker (the whole string when no marker is present). -/
def committedListOf (cs : List Char) : List Char :=
  match splitFirst interimMarker cs with
  | some (a, _) => a
  | none => cs

/-- Pending interim text of a transcript string under the marker convention
of `useTranscription.ts`: the text after the first `' [interim] '` marker,
or empty when no marker is present. -/
def pendingListOf (cs : List Char) : List Char :=
  match splitFirst interimMarkerSp cs with
  | some (_, b) => b
  | none => []

/-- Committed part of the hook's transcript string. -/
def committedOfString (s : String) : String :=
  String.mk (committedListOf s.toList)

/-- Pending interim part of the hook's transcript string. -/
def pendingOfString (s : String) : String :=
  String.mk (pendingListOf s.toList)

/-- State transition of the transcript string performed by
`handleTranscriptMessage` in `useTranscription.ts`: a final fragment is
appended (with a single separating space, or taken alone when the previous
transcript is empty); an interim fragment replaces everything after the
first `' [interim]'` marker by `' [interim] '` followed by the new text. -/
def handleTranscriptMessage (prev : String) (m : TranscriptMessage) : String :=
  if m.isFinal then
    if prev = "" then m.transcript else prev ++ " " ++ m.transcript
  else
    String.mk (committedListOf prev.toList ++ interimMarkerSp ++ m.transcript.toList)

/-- Transcript string reached from `start` after delivering a sequence of
fragments to `handleTranscriptMessage`. -/
def applyFragments (start : String) (frags : List TranscriptMessage) : String :=
  frags.foldl handleTranscriptMessage start

/-! ## Summarization hook (`useSummaries` in `useTranscription.ts`) -/

/-- Line terminators of JavaScript regular expressions, which the dot of
`/ \[interim\].*$/` does not match. -/
def isLineTerm (c : Char) : Bool :=
  c == '\n' || c == '\r' || c == ' ' || c == ' '

/-- Model of `transcript.replace(/ \[interim\].*$/, '')`: the regular
expression (no `m` or `s` flag) matches at the leftmost occurrence of
`' [interim]'` that is followed only by non-line-terminator characters up
to the end of the string, and the match — everything from that occurrence
to the end — is removed.  When no such occurrence exists the string is
returned unchanged. -/
def stripInterimList : List Char → List Char
  | [] => []
  | c :: rest =>
    if leadsWith interimMarker (c :: rest) &&
        (List.drop interimMarker.length (c :: rest)).all (fun d => !isLineTerm d) then
      []
    else
      c :: stripInterimList rest

/-- String-level version of `stripInterimList`. -/
def stripInterim (s : String) : String :=
  String.mk (stripInterimList s.toList)

/-- Item of the summary history (interface `SummaryItem` of
`SummaryDropdown.tsx`). -/
structure SummaryItem where
  id : String
  summary : String
  timestamp : String
deriving DecidableEq

/-- Response of the backend summarization API (interface `SummaryResponse`
of `SummaryService.ts`). -/
structure SummaryResponse where
  summary : String
  timestamp : String
deriving DecidableEq

/-- State owned by the `useSummaries` hook: the visible summary, the
reverse-chronological history, the loading flag, the error message and the
`lastTranscriptRef` debounce baseline. -/
structure SummariesState where
  currentSummary : Option String
  summaryHistory : List SummaryItem
  isLoading : Bool
  error : Option String
  lastTranscript : String
deriving DecidableEq

/-- Fresh state of the `useSummaries` hook. -/
def initialSummariesState : SummariesState :=
  ⟨none, [], false, none, ""⟩

/-- Net effect of one call of `generateSummary(text)` in
`useTranscription.ts` once the request settles.  A blank text returns
without doing anything.  Otherwise the request is issued
(`setIsLoading(true)`, `setError(null)`); on success the summary becomes
current, a new `SummaryItem` (with identifier `Date.now().toString()`,
passed here as `nowId`) is prepended to the history and
`lastTranscriptRef.current` is cleared to the empty string; on failure
only the error message is recorded (`err.message`, with a fallback text
when it is empty).  `setIsLoading(false)` runs in both cases. -/
def generateSummary (s : SummariesState) (text : String) (nowId : String)
    (outcome : Except String SummaryResponse) : SummariesState :=
  if isBlank text then s
  else
    match outcome with
    | .ok r =>
      { s with
        isLoading := false
        error := none
        currentSummary := some r.summary
        summaryHistory := ⟨nowId, r.summary, r.timestamp⟩ :: s.summaryHistory
        lastTranscript := "" }
    | .error e =>
      { s with
        isLoading := false
        error := some (if e = "" then "Failed to generate summary" else e) }

/-- Synchronous part of the 60-second interval callback installed by
`useSummaries`: strip the interim suffix from the transcript; when the
result is non-blank and differs from `lastTranscriptRef.current`, start
`generateSummary` with it (the returned Boolean records that a request was
issued) and store it in `lastTranscriptRef.current`.  The asynchronous
completion of the started request is `generateSummary` above. -/
def summaryIntervalTick (transcript : String) (s : SummariesState) :
    Bool × SummariesState :=
  let tts := stripInterim transcript
  if !isBlank tts && tts ≠ s.lastTranscript then
    (true, { s with lastTranscript := tts })
  else
    (false, s)

/-! ## Streaming client (`DeepgramService.ts`) -/

/-- Shapes of the JSON messages `handleDeepgramMessage` distinguishes: a
`TurnInfo` message with an optional `transcript` field, an `event` string
and an optional `end_of_turn_confidence` number; a legacy `Results`
message whose transcript is `channel.alternatives[0].transcript` and whose
finality flag is `is_final`; the `Connected` confirmation; and anything
else. -/
inductive DgMessage where
  | turnInfo (transcript : Option String) (event : String) (conf : Option ℚ)
  | results (transcript : Option String) (is_final : Option Bool)
  | connected
  | other
deriving DecidableEq

/-- Evaluation of `data.end_of_turn_confidence > 0.5` in JavaScript: false
when the field is absent (`undefined > 0.5` is false), otherwise the
numeric comparison. -/
def confExceeds : Option ℚ → Bool
  | none => false
  | some q => decide (1/2 < q)

/-- Fragments delivered to the transcript callback by
`handleDeepgramMessage` of `DeepgramService.ts` for one incoming message,
given whether a callback is currently registered.  A `TurnInfo` message
with a present, non-blank transcript is delivered with
`isFinal = (event == 'EndOfTurn') || (event == 'Update' &&
end_of_turn_confidence > 0.5)`; a legacy `Results` message with a truthy
transcript is delivered with `isFinal = is_final || false`; everything
else is logged only. -/
def handleDeepgramMessage (hasCallback : Bool) (m : DgMessage) :
    List TranscriptMessage :=
  match m with
  | .turnInfo (some t) e c =>
    if hasCallback && !isBlank t then
      [⟨t, (e == "EndOfTurn") || ((e == "Update") && confExceeds c)⟩]
    else []
  | .turnInfo none _ _ => []
  | .results (some t) fin =>
    if t ≠ "" then
      if hasCallback && !isBlank t then [⟨t, fin.getD false⟩] else []
    else []
  | .results none _ => []
  | .connected => []
  | .other => []

/-- Observable session state of the `DeepgramService` singleton that
`stopTranscription` touches: the WebSocket (present or absent), the
recording flag, the registered callback, the audio mode and the audio
source state for both modes. -/
structure DgState where
  ws : Bool
  isRecording : Bool
  transcriptCallback : Bool
  useTestAudio : Bool
  testAudioInterval : Bool
  audioRecordInitialized : Bool
deriving DecidableEq

/-- Externally visible side effects of `stopTranscription`. -/
inductive DgAction where
  | clearTestInterval
  | audioRecordStop
  | closeWs (code : Nat) (reason : String)
deriving DecidableEq

/-- `stopTranscription()` of `DeepgramService.ts`: returns immediately when
no recording is in progress; otherwise clears the recording flag, stops the
active audio source (test-audio interval or `AudioRecord`), closes the
socket with the normal-closure code 1000 when one is present, and clears
the callback reference.  The second component lists the side effects
performed. -/
def stopTranscription (s : DgState) : DgState × List DgAction :=
  if s.isRecording = false then (s, [])
  else
    let audioActs : List DgAction :=
      if s.useTestAudio then
        if s.testAudioInterval then [.clearTestInterval] else []
      else
        if s.audioRecordInitialized then [.audioRecordStop] else []
    let wsActs : List DgAction :=
      if s.ws then [.closeWs 1000 "Normal closure"] else []
    let s1 : DgState :=
      { s with
        isRecording := false
        testAudioInterval := if s.useTestAudio then false else s.testAudioInterval
        audioRecordInitialized := if s.useTestAudio then s.audioRecordInitialized else false
        ws := false
        transcriptCallback := false }
    (s1, audioActs ++ wsActs)

/-! ## WebSocket relay proxy (server, `wss.on('connection')`) -/

/-- Payload of a WebSocket frame as the `ws` message handler sees it: a
Node `Buffer` of bytes, or a JavaScript string. -/
inductive WsPayload where
  | bin (bytes : List Nat)
  | text (s : String)
deriving DecidableEq

/-- Value of one base64 character in Node's lenient decoder, `none` for
characters outside the alphabet (which Node skips, as it does `'='`). -/
def b64Val (c : Char) : Option Nat :=
  if 'A' ≤ c && c ≤ 'Z' then some (c.toNat - 65)
  else if 'a' ≤ c && c ≤ 'z' then some (c.toNat - 97 + 26)
  else if '0' ≤ c && c ≤ '9' then some (c.toNat - 48 + 52)
  else if c = '+' then some 62
  else if c = '/' then some 63
  else none

/-- Byte groups of base64 decoding: four characters yield three bytes,
a trailing group of three yields two bytes, of two yields one byte, and a
lone trailing character yields nothing. -/
def b64Groups : List Nat → List Nat
  | a :: b :: c :: d :: rest =>
    (a * 4 + b / 16) :: ((b % 16) * 16 + c / 4) :: ((c % 4) * 64 + d) :: b64Groups rest
  | [a, b] => [a * 4 + b / 16]
  | [a, b, c] => [a * 4 + b / 16, (b % 16) * 16 + c / 4]
  | _ => []

/-- Model of Node's `Buffer.from(s, 'base64')`: characters outside the
base64 alphabet are dropped, the remaining 6-bit values are packed into
bytes. -/
def base64Decode (s : String) : List Nat :=
  b64Groups (s.toList.filterMap b64Val)

/-- Test `data.trim().startsWith(String.fromCharCode(123))` — whether the
first non-whitespace character of the payload is an opening curly brace —
which the relay uses to tell JSON text frames from base64-encoded audio. -/
def trimStartsWithBrace (s : String) : Bool :=
  (s.toList.dropWhile isSpaceJS).head? = some '\x7b'

/-- UTF-8 bytes of a string, for `Buffer.from(string)` without encoding
argument. -/
def utf8Bytes (s : String) : List Nat :=
  s.toUTF8.toList.map (fun b => b.toNat)

/-- Frames sent to the upstream (Deepgram) socket by the relay's
`clientWs.on('message')` handler of the server for one client frame, given
whether the upstream socket is open.  A `Buffer` payload (every binary
frame, and — under `ws`'s delivery — also text frames unless a string was
produced) is forwarded as one binary frame with identical bytes; a string
payload whose trimmed text starts with a curly brace is forwarded as one
text frame unchanged; any other string payload is base64-decoded and
forwarded as one binary frame.  Nothing is sent while upstream is not
open. -/
def forwardToUpstream (upstreamOpen : Bool) (data : WsPayload) (isBinary : Bool) :
    List (WsPayload × Bool) :=
  if upstreamOpen then
    match data with
    | .bin b => [(.bin b, true)]
    | .text s =>
      if isBinary then [(.bin (utf8Bytes s), true)]
      else if trimStartsWithBrace s then [(.text s, false)]
      else [(.bin (base64Decode s), true)]
  else []

/-- JavaScript truthiness of an environment variable holding a string:
absent (`undefined`) and empty are falsy. -/
def jsTruthy : Option String → Bool
  | none => false
  | some s => s ≠ ""

/-- Evaluation of `process.env.DEEPGRAM_API_KEY || process.env.DEEPGRAM_API_Key`
at the top of the server: the first variable when truthy, otherwise the
second. -/
def resolveEnvKey (primary alt : Option String) : Option String :=
  if jsTruthy primary then primary else alt

/-- Outcome of accepting one inbound proxy connection: how the inbound
socket was closed by the handler itself (if at all) and whether an
upstream socket to Deepgram was opened. -/
structure ProxyConnOutcome where
  closeStatus : Option (Nat × String)
  upstreamOpened : Bool
deriving DecidableEq

/-- Connection handler `wss.on('connection')` of the server, reduced to its
credential check: when the resolved API key is missing the inbound socket
is closed with code 1011 and the reason
`'Server configuration error: Missing API key'` and the handler returns
before constructing the upstream socket; otherwise the upstream connection
is opened (with the credential attached as an `Authorization` header) and
the inbound socket is left open. -/
def wssOnConnection (apiKey : Option String) : ProxyConnOutcome :=
  if jsTruthy apiKey then ⟨none, true⟩
  else ⟨some (1011, "Server configuration error: Missing API key"), false⟩

/-! ## File transcription (server, `POST /transcribe-file`) -/

/-- One step of the `deepgramWs.on('message')` accumulator of
`/transcribe-file`: the state is the `transcript` variable and the
`isComplete` flag.  A `TurnInfo` message with a present, non-blank
transcript replaces the variable (and marks completion when final); a
legacy `Results` message with a truthy, non-blank transcript does the
same; all other messages leave the state unchanged. -/
def fileTranscriptStep (st : String × Bool) (m : DgMessage) : String × Bool :=
  match m with
  | .turnInfo (some t) e c =>
    if !isBlank t then
      if (e == "EndOfTurn") || ((e == "Update") && confExceeds c) then (t, true)
      else (t, st.snd)
    else st
  | .results (some t) fin =>
    if t ≠ "" then
      if !isBlank t then
        if fin.getD false then (t, true) else (t, st.snd)
      else st
    else st
  | _ => st

/-- Response body assembled when the Deepgram socket of `/transcribe-file`
closes: the accumulated transcript (or the fallback text when it is still
empty) and the completion flag. -/
def fileTranscriptResult (msgs : List DgMessage) : String × Bool :=
  let st := msgs.foldl fileTranscriptStep ("", false)
  (if st.fst = "" then "No transcript received" else st.fst, st.snd)

/-- Texts that actually replace the transcript variable during
`/transcribe-file`: transcripts of `TurnInfo` messages that are present
and non-blank, and of `Results` messages that are truthy and non-blank. -/
def effectiveTexts (msgs : List DgMessage) : List String :=
  msgs.filterMap fun m =>
    match m with
    | .turnInfo (some t) _ _ => if !isBlank t then some t else none
    | .results (some t) _ => if t ≠ "" && !isBlank t then some t else none
    | _ => none

/-! ## Sentence limit (server, `enforceSentenceLimit`) -/

/-- Sentence-terminal punctuation, the character class `[.!?]` of
`enforceSentenceLimit`. -/
def isPunct (c : Char) : Bool :=
  c == '.' || c == '!' || c == '?'

/-- Whether a list starts with a whitespace character. -/
def headSpace : List Char → Bool
  | [] => false
  | d :: _ => isSpaceJS d

/-- Whether the regular expression `/[.!?]+\s+/` matches at the head of the
list: a match starts here iff the head is punctuation and is followed
either directly by whitespace or by a position where a match starts (the
greedy punctuation run eventually reaches whitespace). -/
def matchAt : List Char → Bool
  | [] => false
  | c :: cs => isPunct c && (headSpace cs || matchAt cs)

/-- Remainder after the match of `/[.!?]+\s+/` at the head of the list (the
punctuation run and the maximal whitespace run after it are consumed).
Only meaningful when `matchAt` holds. -/
def afterMatch : List Char → List Char
  | [] => []
  | _ :: cs => if headSpace cs then cs.dropWhile isSpaceJS else afterMatch cs

/-- Fuelled splitting of a character list at every match of `/[.!?]+\s+/`,
the behaviour of `text.split(/[.!?]+\s+/)` in JavaScript.  The fuel only
serves termination; any fuel at least the length of the list gives the
split. -/
def splitFuel : Nat → List Char → List (List Char)
  | 0, cs => [cs]
  | _ + 1, [] => [[]]
  | fuel + 1, c :: rest =>
    if matchAt (c :: rest) then
      [] :: splitFuel fuel (afterMatch (c :: rest))
    else
      match splitFuel fuel rest with
      | p :: ps => (c :: p) :: ps
      | [] => [[c]]

/-- Split of a character list at every match of `/[.!?]+\s+/`. -/
def splitSentences (cs : List Char) : List (List Char) :=
  splitFuel cs.length cs

/-- Whether a piece survives `.filter(s => s.trim())`: it contains at least
one non-whitespace character. -/
def hasNonSpace (p : List Char) : Bool :=
  p.any (fun c => !isSpaceJS c)

/-- Value of `text.split(/[.!?]+\s+/).filter(s => s.trim())` in
`enforceSentenceLimit`. -/
def sentencesOf (cs : List Char) : List (List Char) :=
  (splitSentences cs).filter hasNonSpace

/-- Number of sentences of a string as `enforceSentenceLimit` counts them. -/
def sentenceCount (s : String) : Nat :=
  (sentencesOf s.toList).length

/-- Join of the truncated sentences with `'. '`, the behaviour of
`truncated.join('. ')`. -/
def joinDot : List (List Char) → List Char
  | [] => []
  | [q] => q
  | q :: qs => q ++ '.' :: ' ' :: joinDot qs

/-- Test `result.match(/[.!?]$/)`: the last character is sentence-terminal
punctuation. -/
def endsPunct (cs : List Char) : Bool :=
  match cs.getLast? with
  | some c => isPunct c
  | none => false

/-- String-level version of `endsPunct`. -/
def endsInTerminal (s : String) : Bool :=
  endsPunct s.toList

/-- `enforceSentenceLimit(text, maxSentences)` of the server: an empty
(falsy) text yields the empty string; a text with at most `maxSentences`
sentences is returned unchanged; otherwise the first `maxSentences`
sentences are joined with `'. '` and a final `'.'` is appended when the
join does not already end in terminal punctuation. -/
def enforceSentenceLimit (text : String) (maxSentences : Nat) : String :=
  if text = "" then ""
  else
    let sentences := sentencesOf text.toList
    if sentences.length ≤ maxSentences then text
    else
      let truncated := sentences.take maxSentences
      let result := joinDot truncated
      if endsPunct result then String.mk result else String.mk (result ++ ['.'])

/-! ## Predicates used by the correctness statements -/

/-- The separator `M` occurs nowhere in `cs`. -/
def noOcc (M cs : List Char) : Prop :=
  ∀ i : Nat, leadsWith M (cs.drop i) = false

/-- No suffix of the piece carries a match of `/[.!?]+\s+/`; every piece
produced by `splitSentences` satisfies this. -/
def cleanPiece (p : List Char) : Prop :=
  ∀ i : Nat, matchAt (p.drop i) = false

/-- The piece does not end in sentence punctuation. -/
def lastNotPunct (p : List Char) : Prop :=
  ∀ x, p.getLast? = some x → isPunct x = false

/-- The piece does not start with whitespace. -/
def headNotSpace (p : List Char) : Prop :=
  ∀ d, p.head? = some d → isSpaceJS d = false

/-! ## Theorems -/

/-! ## General helper lemmas -/

/-- Element of `getLast?`. -/
theorem mem_of_getLast?_eq {α : Type _} {l : List α} {a : α}
    (h : l.getLast? = some a) : a ∈ l := by
  rcases List.mem_getLast?_eq_getLast (by simp [h] : a ∈ l.getLast?) with ⟨hne, rfl⟩
  exact List.getLast_mem hne

/-- Tail membership transfers along sublists. -/
theorem mem_tail_of_sublist {α : Type _} {l' l : List α} (h : List.Sublist l' l) :
    ∀ {x : α}, x ∈ l'.tail → x ∈ l.tail := by
  induction h with
  | slnil => intro x hx; exact hx
  | @cons l₁ l₂ a h ih =>
    intro x hx
    exact h.subset (List.mem_of_mem_tail hx)
  | @cons₂ l₁ l₂ a h ih =>
    intro x hx
    exact h.subset hx

/-- Membership in `dropLast` is preserved by a cons in front. -/
theorem mem_dropLast_cons {α : Type _} {l : List α} {a x : α}
    (hx : x ∈ l.dropLast) : x ∈ (a :: l).dropLast := by
  cases l with
  | nil => simp at hx
  | cons b l' =>
    show x ∈ a :: (b :: l').dropLast
    exact List.mem_cons_of_mem _ hx

/-- Membership in `dropLast` transfers along sublists. -/
theorem mem_dropLast_of_sublist {α : Type _} {l' l : List α} (h : List.Sublist l' l) :
    ∀ {x : α}, x ∈ l'.dropLast → x ∈ l.dropLast := by
  induction h with
  | slnil => intro x hx; exact hx
  | @cons l₁ l₂ a h ih =>
    intro x hx
    exact mem_dropLast_cons (ih hx)
  | @cons₂ l₁ l₂ a h ih =>
    intro x hx
    cases l₁ with
    | nil => simp at hx
    | cons b l₁' =>
      have hx' : x ∈ a :: (b :: l₁').dropLast := hx
      cases l₂ with
      | nil => exact absurd (List.sublist_nil.mp h) (by simp)
      | cons c l₂' =>
        show x ∈ a :: (c :: l₂').dropLast
        rcases List.mem_cons.mp hx' with hxa | hx''
        · exact hxa ▸ List.mem_cons_self _ _
        · exact List.mem_cons_of_mem _ (ih hx'')

/-- `getD` of `getLast?` peels a cons. -/
theorem getLastD_cons {α : Type _} :
    ∀ (l : List α) (a x : α), ((a :: l).getLast?).getD x = (l.getLast?).getD a
  | [], _, _ => rfl
  | b :: l, a, x => by
    rw [List.getLast?_cons_cons]
    rw [getLastD_cons l b x, getLastD_cons l b a]

/-! ## Marker-splitting lemmas for the transcript coordinator -/

/-- Every list is an initial segment of itself. -/
theorem leadsWith_refl : ∀ M : List Char, leadsWith M M = true
  | [] => rfl
  | _ :: ps => by simp [leadsWith, leadsWith_refl ps]

/-- An initial segment stays initial after appending on the right. -/
theorem leadsWith_append_mono :
    ∀ (M x y : List Char), leadsWith M x = true → leadsWith M (x ++ y) = true
  | [], _, _, _ => rfl
  | p :: ps, [], y, h => by simp [leadsWith] at h
  | p :: ps, c :: cs, y, h => by
    simp [leadsWith] at h ⊢
    exact ⟨h.1, leadsWith_append_mono ps cs y h.2⟩

/-- For a pattern no longer than the left part, being initial in an append
is being initial in the left part. -/
theorem leadsWith_long :
    ∀ (M L rest : List Char), M.length ≤ L.length →
      leadsWith M (L ++ rest) = leadsWith M L
  | [], _, _, _ => rfl
  | p :: ps, [], rest, h => by simp at h
  | p :: ps, c :: cs, rest, h => by
    show (p == c && leadsWith ps (cs ++ rest)) = (p == c && leadsWith ps cs)
    rw [leadsWith_long ps cs rest (Nat.le_of_succ_le_succ (by simpa using h))]

/-- Being initial in an append, for a pattern at least as long as the left
part, forces the left part to be the pattern's own start, with the rest of
the pattern initial in the right part. -/
theorem leadsWith_append_split :
    ∀ (L M rest : List Char), L.length ≤ M.length →
      leadsWith M (L ++ rest) = true →
      M.take L.length = L ∧ leadsWith (M.drop L.length) rest = true
  | [], M, rest, _, h => ⟨rfl, h⟩
  | l :: L', [], rest, h, _ => by simp at h
  | l :: L', m :: M', rest, h, hl => by
    simp [leadsWith] at hl
    have ih := leadsWith_append_split L' M' rest (Nat.le_of_succ_le_succ (by simpa using h)) hl.2
    exact ⟨by simp [List.take, hl.1.symm, ih.1], by simpa [List.drop] using ih.2⟩

/-- A longer pattern being initial makes every pattern-prefix initial. -/
theorem leadsWith_weaken :
    ∀ (M N x : List Char), leadsWith (M ++ N) x = true → leadsWith M x = true
  | [], _, _, _ => rfl
  | p :: ps, N, [], h => by simp [leadsWith] at h
  | p :: ps, N, c :: cs, h => by
    simp [leadsWith] at h ⊢
    exact ⟨h.1, leadsWith_weaken ps N cs h.2⟩

/-- An initial pattern can be peeled off the list. -/
theorem leadsWith_eq_append :
    ∀ (M x : List Char), leadsWith M x = true → x = M ++ x.drop M.length
  | [], x, _ => by simp
  | p :: ps, [], h => by simp [leadsWith] at h
  | p :: ps, c :: cs, h => by
    simp [leadsWith] at h
    have := leadsWith_eq_append ps cs h.2
    simp [List.drop, h.1, List.cons_append]
    exact this

/-- Dropping a cons shifts `noOcc`. -/
theorem noOcc_of_cons {M : List Char} {c : Char} {cs : List Char}
    (h : noOcc M (c :: cs)) : noOcc M cs :=
  fun i => by have := h (i + 1); simpa using this

/-- `splitFirst` decomposes its input around the separator. -/
theorem splitFirst_eq (M : List Char) :
    ∀ cs a b, splitFirst M cs = some (a, b) → cs = a ++ (M ++ b) := by
  intro cs
  induction cs with
  | nil => intro a b h; simp [splitFirst] at h
  | cons c rest ih =>
    intro a b h
    by_cases hl : leadsWith M (c :: rest) = true
    · simp [splitFirst, hl] at h
      obtain ⟨ha, hb⟩ := h
      subst ha
      have := leadsWith_eq_append M (c :: rest) hl
      simpa [hb.symm] using this
    · simp [splitFirst, hl] at h
      rcases hs : splitFirst M rest with _ | ⟨a', b'⟩
      · simp [hs] at h
      · simp [hs] at h
        obtain ⟨ha, hb⟩ := h
        have := ih a' b' hs
        subst ha
        simp [List.cons_append, hb] at this ⊢
        exact this

/-- The part before the first occurrence, and the whole list when there is
no occurrence, are free of the separator. -/
theorem splitFirst_front_noOcc (M : List Char) (hM : M ≠ []) :
    ∀ cs, (∀ a b, splitFirst M cs = some (a, b) → noOcc M a) ∧
      (splitFirst M cs = none → noOcc M cs) := by
  intro cs
  induction cs with
  | nil =>
    constructor
    · intro a b h; simp [splitFirst] at h
    · intro _ i
      rcases M with _ | ⟨p, ps⟩
      · exact absurd rfl hM
      · simp [leadsWith]
  | cons c rest ih =>
    by_cases hl : leadsWith M (c :: rest) = true
    · constructor
      · intro a b h
        simp [splitFirst, hl] at h
        obtain ⟨ha, _⟩ := h
        subst ha
        intro i
        rcases M with _ | ⟨p, ps⟩
        · exact absurd rfl hM
        · simp [leadsWith]
      · intro h; simp [splitFirst, hl] at h
    · constructor
      · intro a b h
        simp [splitFirst, hl] at h
        rcases hs : splitFirst M rest with _ | ⟨a', b'⟩
        · simp [hs] at h
        · simp [hs] at h
          obtain ⟨ha, hb⟩ := h
          subst ha
          intro i
          cases i with
          | zero =>
            simp only [List.drop]
            by_contra hcon
            have hcon' : leadsWith M (c :: a') = true := by
              revert hcon
              cases leadsWith M (c :: a') <;> simp
            have hdec := splitFirst_eq M rest a' b' hs
            have : leadsWith M ((c :: a') ++ (M ++ b')) = true :=
              leadsWith_append_mono M (c :: a') (M ++ b') hcon'
            rw [show (c :: a') ++ (M ++ b') = c :: rest by
              simp [List.cons_append, hdec]] at this
            exact hl this
          | succ i =>
            have := (ih.1 a' b' hs) i
            simpa using this
      · intro h
        simp [splitFirst, hl] at h
        rcases hs : splitFirst M rest with _ | ⟨a', b'⟩
        · intro i
          cases i with
          | zero =>
            simpa using (by revert hl; cases leadsWith M (c :: rest) <;> simp)
          | succ i =>
            have := (ih.2 hs) i
            simpa using this
        · simp [hs] at h

/-- The interim marker has no nontrivial self-overlap. -/
theorem interimMarker_border :
    ∀ j, j < interimMarker.length → 1 ≤ j →
      leadsWith (interimMarker.drop j) interimMarker = false := by decide

/-- The spaced interim marker overlaps itself only at offset 10, where the
remaining pattern is the single space. -/
theorem interimMarkerSp_border :
    ∀ j, j < interimMarkerSp.length → 1 ≤ j → j ≠ 10 →
      leadsWith (interimMarkerSp.drop j) interimMarkerSp = false := by decide

/-- Splitting a list that begins with the separator finds it at once. -/
theorem splitFirst_self (M : List Char) (hM : M ≠ []) (r : List Char) :
    splitFirst M (M ++ r) = some ([], r) := by
  rcases M with _ | ⟨m, ms⟩
  · exact absurd rfl hM
  · show splitFirst (m :: ms) (m :: (ms ++ r)) = some ([], r)
    have hlead : leadsWith (m :: ms) (m :: (ms ++ r)) = true := by
      have := leadsWith_append_mono (m :: ms) (m :: ms) r (leadsWith_refl _)
      simpa using this
    simp only [splitFirst, hlead, if_true]
    have hdrop : List.drop (m :: ms).length ((m :: ms) ++ r) = r := List.drop_left _ _
    rw [show ((m :: ms) ++ r : List Char) = m :: (ms ++ r) from rfl] at hdrop
    rw [hdrop]

/-- Step of `splitFirst` at a position where the separator does not start. -/
theorem splitFirst_cons_of_not_lead (M : List Char) (c : Char) (rest a b : List Char)
    (hl : leadsWith M (c :: rest) = false)
    (hrec : splitFirst M rest = some (a, b)) :
    splitFirst M (c :: rest) = some (c :: a, b) := by
  simp [splitFirst, hl, hrec]

/-- Splitting at the bare marker of a string of the shape
`committed ++ marker ++ rest` finds exactly the committed part, provided
the committed part is marker-free. -/
theorem splitFirst_append_marker (C r : List Char) (hC : noOcc interimMarker C) :
    splitFirst interimMarker (C ++ (interimMarker ++ r)) = some (C, r) := by
  induction C with
  | nil =>
    simpa using splitFirst_self interimMarker (by decide) r
  | cons c C' ihC =>
    have hC' : noOcc interimMarker C' := noOcc_of_cons hC
    have hl : leadsWith interimMarker ((c :: C') ++ (interimMarker ++ r)) = false := by
      by_contra hcon
      have hcon' : leadsWith interimMarker ((c :: C') ++ (interimMarker ++ r)) = true := by
        revert hcon; cases leadsWith interimMarker ((c :: C') ++ (interimMarker ++ r)) <;> simp
      rcases le_or_lt interimMarker.length (c :: C').length with hlen | hlen
      · rw [leadsWith_long _ _ _ hlen] at hcon'
        have := hC 0
        simp at this
        exact absurd hcon' (by simp [this])
      · have hsplit := leadsWith_append_split (c :: C') interimMarker
          (interimMarker ++ r) (Nat.le_of_lt hlen) hcon'
        have hlong : leadsWith (interimMarker.drop (c :: C').length)
            (interimMarker ++ r) = leadsWith (interimMarker.drop (c :: C').length)
            interimMarker := by
          apply leadsWith_long
          simp [List.length_drop]
        rw [hlong] at hsplit
        have hb := interimMarker_border (c :: C').length hlen (by simp)
        rw [hb] at hsplit
        exact absurd hsplit.2 (by simp)
    have hl' : leadsWith interimMarker (c :: (C' ++ (interimMarker ++ r))) = false := by
      simpa using hl
    have := splitFirst_cons_of_not_lead interimMarker c (C' ++ (interimMarker ++ r))
      C' r hl' (ihC hC')
    simpa using this

/-- Splitting at the spaced marker of `committed ++ spaced-marker ++ rest`
finds exactly the committed part, provided the committed part is free of
the bare marker. -/
theorem splitFirst_append_markerSp (C t : List Char) (hC : noOcc interimMarker C) :
    splitFirst interimMarkerSp (C ++ (interimMarkerSp ++ t)) = some (C, t) := by
  induction C with
  | nil =>
    simpa using splitFirst_self interimMarkerSp (by decide) t
  | cons c C' ihC =>
    have hC' : noOcc interimMarker C' := noOcc_of_cons hC
    have hl : leadsWith interimMarkerSp ((c :: C') ++ (interimMarkerSp ++ t)) = false := by
      by_contra hcon
      have hcon' : leadsWith interimMarkerSp ((c :: C') ++ (interimMarkerSp ++ t)) = true := by
        revert hcon
        cases leadsWith interimMarkerSp ((c :: C') ++ (interimMarkerSp ++ t)) <;> simp
      rcases le_or_lt interimMarkerSp.length (c :: C').length with hlen | hlen
      · rw [leadsWith_long _ _ _ hlen] at hcon'
        have hweak : leadsWith interimMarker (c :: C') = true := by
          apply leadsWith_weaken interimMarker [' ']
          rw [show interimMarker ++ [' '] = interimMarkerSp by decide]
          exact hcon'
        have := hC 0
        simp at this
        exact absurd hweak (by simp [this])
      · have hsplit := leadsWith_append_split (c :: C') interimMarkerSp
          (interimMarkerSp ++ t) (Nat.le_of_lt hlen) hcon'
        have hlong : leadsWith (interimMarkerSp.drop (c :: C').length)
            (interimMarkerSp ++ t) = leadsWith (interimMarkerSp.drop (c :: C').length)
            interimMarkerSp := by
          apply leadsWith_long
          simp [List.length_drop]
        rw [hlong] at hsplit
        by_cases hj : (c :: C').length = 10
        · have htake : interimMarkerSp.take 10 = interimMarker := by decide
          have hCeq : (c : Char) :: C' = interimMarker := by
            rw [← hsplit.1, hj, htake]
          have := hC 0
          simp only [List.drop] at this
          rw [hCeq] at this
          exact absurd (leadsWith_refl interimMarker) (by simp [this])
        · have hb := interimMarkerSp_border (c :: C').length hlen (by simp) hj
          rw [hb] at hsplit
          exact absurd hsplit.2 (by simp)
    have hl' : leadsWith interimMarkerSp (c :: (C' ++ (interimMarkerSp ++ t))) = false := by
      simpa using hl
    have := splitFirst_cons_of_not_lead interimMarkerSp c (C' ++ (interimMarkerSp ++ t))
      C' t hl' (ihC hC')
    simpa using this

/-- The committed part of any transcript string is marker-free. -/
theorem committedListOf_noOcc (cs : List Char) : noOcc interimMarker (committedListOf cs) := by
  unfold committedListOf
  rcases hs : splitFirst interimMarker cs with _ | ⟨a, b⟩
  · exact (splitFirst_front_noOcc interimMarker (by decide) cs).2 hs
  · exact (splitFirst_front_noOcc interimMarker (by decide) cs).1 a b hs

/-- Reassembling a string from its character list. -/
theorem stringMk_toList (s : String) : String.mk s.toList = s := rfl

/-- One interim fragment keeps the committed part and replaces the pending
part with exactly the fragment text. -/
theorem interim_step (prev t : String) :
    committedListOf (handleTranscriptMessage prev ⟨t, false⟩).toList =
      committedListOf prev.toList ∧
    pendingListOf (handleTranscriptMessage prev ⟨t, false⟩).toList = t.toList := by
  have hstep : (handleTranscriptMessage prev ⟨t, false⟩).toList =
      committedListOf prev.toList ++ (interimMarkerSp ++ t.toList) := by
    show (String.mk (committedListOf prev.toList ++ interimMarkerSp ++ t.toList)).toList = _
    simp [List.append_assoc]
  set C := committedListOf prev.toList with hCdef
  have hC : noOcc interimMarker C := committedListOf_noOcc prev.toList
  constructor
  · rw [hstep]
    unfold committedListOf
    have heq : C ++ (interimMarkerSp ++ t.toList) =
        C ++ (interimMarker ++ (' ' :: t.toList)) := by
      rw [show interimMarkerSp = interimMarker ++ [' '] by decide]
      simp
    rw [heq, splitFirst_append_marker C (' ' :: t.toList) hC]
  · rw [hstep]
    unfold pendingListOf
    rw [splitFirst_append_markerSp C t.toList hC]

/-! ## C6: interim-only sequences -/

/-- Interim fragments never change the committed part. -/
theorem interim_chain :
    ∀ (frags : List TranscriptMessage), (∀ g ∈ frags, g.isFinal = false) →
      ∀ start : String,
        committedOfString (applyFragments start frags) = committedOfString start := by
  intro frags
  induction frags with
  | nil => intro _ start; rfl
  | cons g rest ih =>
    intro hall start
    rcases g with ⟨t, gf⟩
    have : gf = false := hall _ (List.mem_cons_self _ _)
    subst this
    show committedOfString (applyFragments (handleTranscriptMessage start ⟨t, false⟩) rest) = _
    rw [ih (fun x hx => hall x (List.mem_cons_of_mem _ hx))]
    show String.mk (committedListOf _) = String.mk (committedListOf _)
    rw [(interim_step start t).1]

/-- Claim C6: delivering any non-empty sequence of interim-only fragments
leaves the committed transcript unchanged, and the pending text equals
exactly the text of the latest interim fragment. -/
theorem interim_only_replaces_pending (start : String)
    (frags : List TranscriptMessage) (f : TranscriptMessage)
    (hne : frags ≠ [])
    (hint : ∀ g ∈ frags, g.isFinal = false)
    (hlast : frags.getLast? = some f) :
    committedOfString (applyFragments start frags) = committedOfString start ∧
    pendingOfString (applyFragments start frags) = f.transcript := by
  induction frags generalizing start with
  | nil => exact absurd rfl hne
  | cons g rest ih =>
    rcases g with ⟨t, gf⟩
    have hgf : gf = false := hint _ (List.mem_cons_self _ _)
    subst hgf
    cases rest with
    | nil =>
      have hf : f = ⟨t, false⟩ := by
        simpa using hlast.symm
      subst hf
      constructor
      · exact interim_chain [⟨t, false⟩] hint start
      · show pendingOfString (handleTranscriptMessage start ⟨t, false⟩) = t
        show String.mk (pendingListOf _) = t
        rw [(interim_step start t).2]
        exact stringMk_toList t
    | cons g' rest' =>
      have hlast' : (g' :: rest').getLast? = some f := by
        rw [← hlast]; exact List.getLast?_cons_cons.symm
      have hih := ih (handleTranscriptMessage start ⟨t, false⟩) (by simp)
        (fun x hx => hint x (List.mem_cons_of_mem _ hx)) hlast'
      constructor
      · show committedOfString
          (applyFragments (handleTranscriptMessage start ⟨t, false⟩) (g' :: rest')) = _
        rw [hih.1]
        show String.mk (committedListOf _) = String.mk (committedListOf _)
        rw [(interim_step start t).1]
      · exact hih.2

/-- Witness for `interim_only_replaces_pending`. -/
theorem interim_only_replaces_pending_witness :
    ([⟨"x", false⟩, ⟨"y", false⟩] : List TranscriptMessage) ≠ [] ∧
    committedOfString (applyFragments "abc" [⟨"x", false⟩, ⟨"y", false⟩]) =
      committedOfString "abc" ∧
    pendingOfString (applyFragments "abc" [⟨"x", false⟩, ⟨"y", false⟩]) = "y" :=
  ⟨by decide,
   (interim_only_replaces_pending "abc" [⟨"x", false⟩, ⟨"y", false⟩] ⟨"y", false⟩
     (by decide) (by decide) (by decide)).1,
   (interim_only_replaces_pending "abc" [⟨"x", false⟩, ⟨"y", false⟩] ⟨"y", false⟩
     (by decide) (by decide) (by decide)).2⟩

/-! ## C1: a final fragment after interim fragments is not committed -/

/-- Claim C1 is false on the code: delivering the interim fragment
`'Hello'` and then the final fragment `'Hello world'` to an empty
transcript produces the transcript `' [interim] Hello Hello world'`, whose
committed part is empty — not `'Hello world'` — and whose pending part is
`'Hello Hello world'`, not empty.  The final branch of
`handleTranscriptMessage` appends after the interim marker without
removing it, so the final text lands in the pending region. -/
theorem finalFragment_after_interim_lost :
    applyFragments "" [⟨"Hello", false⟩, ⟨"Hello world", true⟩] =
      " [interim] Hello Hello world" ∧
    committedOfString " [interim] Hello Hello world" = "" ∧
    committedOfString " [interim] Hello Hello world" ≠ "Hello world" ∧
    pendingOfString " [interim] Hello Hello world" = "Hello Hello world" ∧
    pendingOfString " [interim] Hello Hello world" ≠ "" := by
  decide

/-! ## C2: the debounce baseline is cleared, not recorded, on success -/

/-- Claim C2 is false on the code: after a fire that summarizes
`'Hello world.'` succeeds, `generateSummary` resets
`lastTranscriptRef.current` to the empty string instead of recording the
summarized text, so the next interval fire with the unchanged transcript
issues a second request even though the committed transcript equals the
text of the last successful summarization. -/
theorem debounce_cleared_on_success_reissues :
    (summaryIntervalTick "Hello world." initialSummariesState).fst = true ∧
    ((summaryIntervalTick "Hello world." initialSummariesState).snd).lastTranscript =
      "Hello world." ∧
    (generateSummary (summaryIntervalTick "Hello world." initialSummariesState).snd
        "Hello world." "1" (.ok ⟨"A summary.", "t0"⟩)).lastTranscript = "" ∧
    (summaryIntervalTick "Hello world."
        (generateSummary (summaryIntervalTick "Hello world." initialSummariesState).snd
          "Hello world." "1" (.ok ⟨"A summary.", "t0"⟩))).fst = true := by
  decide

/-! ## C3: client-to-upstream forwarding -/

/-- Claim C3 is false as stated: a text frame whose payload does not start
with a curly brace — here the four-character text `'AAAA'` — is not
forwarded with the same payload and the same text nature; it is base64-
decoded into the three bytes 0,0,0 and forwarded as a binary frame. -/
theorem text_frame_transformed_to_binary :
    forwardToUpstream true (.text "AAAA") false = [(.bin [0, 0, 0], true)] ∧
    ((WsPayload.bin [0, 0, 0], true) : WsPayload × Bool) ≠ (.text "AAAA", false) := by
  decide

/-- Amended claim C3: while the upstream socket is open, every `Buffer`
(binary) frame from the client is forwarded as exactly one byte-identical
binary frame; a text frame whose trimmed payload starts with a curly brace
is forwarded as exactly one unchanged text frame; any other text frame is
base64-decoded and forwarded as one binary frame.  Nothing is forwarded
while upstream is not open. -/
theorem forwardToUpstream_spec :
    (∀ (b : List Nat) (bin : Bool),
      forwardToUpstream true (.bin b) bin = [(.bin b, true)]) ∧
    (∀ s : String, trimStartsWithBrace s = true →
      forwardToUpstream true (.text s) false = [(.text s, false)]) ∧
    (∀ s : String, trimStartsWithBrace s = false →
      forwardToUpstream true (.text s) false = [(.bin (base64Decode s), true)]) ∧
    (∀ (d : WsPayload) (bin : Bool), forwardToUpstream false d bin = []) := by
  refine ⟨fun b bin => rfl, fun s h => ?_, fun s h => ?_, fun d bin => rfl⟩
  · simp [forwardToUpstream, h]
  · simp [forwardToUpstream, h]

/-- Witness for `forwardToUpstream_spec`, including concrete scenario B: a
3200-byte binary frame is forwarded as exactly one byte-identical binary
frame. -/
theorem forwardToUpstream_spec_witness :
    forwardToUpstream true (.bin (List.replicate 3200 127)) true =
      [(.bin (List.replicate 3200 127), true)] ∧
    trimStartsWithBrace "\x7b\x7d" = true ∧
    forwardToUpstream true (.text "\x7b\x7d") false = [(.text "\x7b\x7d", false)] ∧
    trimStartsWithBrace "AAAA" = false ∧
    forwardToUpstream true (.text "AAAA") false = [(.bin (base64Decode "AAAA"), true)] :=
  ⟨forwardToUpstream_spec.1 _ _, by decide,
   forwardToUpstream_spec.2.1 _ (by decide), by decide,
   forwardToUpstream_spec.2.2.1 _ (by decide)⟩

/-! ## C5: missing credential closes the inbound socket, opens nothing -/

/-- Claim C5: when neither credential environment variable is present, the
connection handler closes the inbound socket with the distinct
server-misconfigured status (code 1011, reason
`'Server configuration error: Missing API key'`) and never opens an
upstream connection. -/
theorem missing_key_closes_without_upstream (p a : Option String)
    (hp : p = none) (ha : a = none) :
    wssOnConnection (resolveEnvKey p a) =
      ⟨some (1011, "Server configuration error: Missing API key"), false⟩ := by
  subst hp; subst ha; rfl

/-- Witness for `missing_key_closes_without_upstream`. -/
theorem missing_key_closes_without_upstream_witness :
    wssOnConnection (resolveEnvKey none none) =
      ⟨some (1011, "Server configuration error: Missing API key"), false⟩ :=
  missing_key_closes_without_upstream none none rfl rfl

/-! ## C8: `stopTranscription` is idempotent -/

/-- Claim C8: stopping twice has the same observable effect as stopping
once — the state after the second call is unchanged and the second call
performs no side effects — and stopping an already-stopped session changes
nothing and performs nothing. -/
theorem stopTranscription_idempotent (s : DgState) :
    stopTranscription (stopTranscription s).fst = ((stopTranscription s).fst, []) ∧
    (s.isRecording = false → stopTranscription s = (s, [])) := by
  constructor
  · by_cases h : s.isRecording = false <;> simp [stopTranscription, h]
  · intro h; simp [stopTranscription, h]

/-- Witness for `stopTranscription_idempotent`: a recording session with a
live socket and initialized recorder, and an already-stopped session. -/
theorem stopTranscription_idempotent_witness :
    stopTranscription (stopTranscription ⟨true, true, true, false, false, true⟩).fst =
      ((stopTranscription ⟨true, true, true, false, false, true⟩).fst, []) ∧
    stopTranscription ⟨true, false, true, false, false, false⟩ =
      (⟨true, false, true, false, false, false⟩, []) :=
  ⟨(stopTranscription_idempotent _).1, (stopTranscription_idempotent _).2 rfl⟩

/-! ## C9: a failed summarization leaves summary and history unchanged -/

/-- Claim C9: a failed summarization request leaves the current summary and
the history exactly as they were and records an error message, while a
successful request prepends the new item to the history. -/
theorem generateSummary_failure_spec (s : SummariesState)
    (text nowId e : String) (r : SummaryResponse) :
    (generateSummary s text nowId (.error e)).currentSummary = s.currentSummary ∧
    (generateSummary s text nowId (.error e)).summaryHistory = s.summaryHistory ∧
    (isBlank text = false →
      (generateSummary s text nowId (.error e)).error =
        some (if e = "" then "Failed to generate summary" else e)) ∧
    (isBlank text = false →
      (generateSummary s text nowId (.ok r)).summaryHistory =
        ⟨nowId, r.summary, r.timestamp⟩ :: s.summaryHistory) := by
  by_cases hb : isBlank text <;> simp [generateSummary, hb]

/-- Witness for `generateSummary_failure_spec`. -/
theorem generateSummary_failure_spec_witness :
    isBlank "hi" = false ∧
    (generateSummary initialSummariesState "hi" "1" (.error "boom")).currentSummary =
      initialSummariesState.currentSummary ∧
    (generateSummary initialSummariesState "hi" "1" (.error "boom")).summaryHistory =
      initialSummariesState.summaryHistory ∧
    (generateSummary initialSummariesState "hi" "1" (.error "boom")).error =
      some (if "boom" = "" then "Failed to generate summary" else "boom") ∧
    (generateSummary initialSummariesState "hi" "1"
        (.ok ⟨"sum", "t"⟩)).summaryHistory =
      [⟨"1", "sum", "t"⟩] :=
  ⟨by decide,
   (generateSummary_failure_spec initialSummariesState "hi" "1" "boom" ⟨"sum", "t"⟩).1,
   (generateSummary_failure_spec initialSummariesState "hi" "1" "boom" ⟨"sum", "t"⟩).2.1,
   (generateSummary_failure_spec initialSummariesState "hi" "1" "boom" ⟨"sum", "t"⟩).2.2.1
     (by decide),
   (generateSummary_failure_spec initialSummariesState "hi" "1" "boom" ⟨"sum", "t"⟩).2.2.2
     (by decide)⟩

/-! ## C7: finality of delivered fragments -/

/-- Claim C7: a fragment delivered to the callback is final exactly when
the message carries an explicit truthy final flag (legacy `Results` with
`is_final` true), or is a `TurnInfo` whose event is the turn-completion
event `'EndOfTurn'`, or is a `TurnInfo` whose event is the update event
`'Update'` with an end-of-turn confidence exceeding 0.5; every other
delivered fragment is interim. -/
theorem delivered_fragment_finality (m : DgMessage) (frag : TranscriptMessage)
    (h : frag ∈ handleDeepgramMessage true m) :
    frag.isFinal = true ↔
      ((∃ t c, m = .turnInfo t "EndOfTurn" c) ∨
       (∃ t q, m = .turnInfo t "Update" (some q) ∧ 1/2 < q) ∨
       (∃ t, m = .results t (some true))) := by
  cases m with
  | turnInfo ot e c =>
    cases ot with
    | none => simp [handleDeepgramMessage] at h
    | some t =>
      by_cases hb : isBlank t
      · simp [handleDeepgramMessage, hb] at h
      · simp [handleDeepgramMessage, hb] at h
        subst h
        show ((e == "EndOfTurn") || ((e == "Update") && confExceeds c)) = true ↔ _
        rcases c with _ | q
        · simp [confExceeds]
        · simp [confExceeds]
          constructor
          · rintro (he | ⟨he, hq⟩)
            · exact Or.inl he
            · exact Or.inr ⟨some t, q, ⟨rfl, he, rfl⟩, hq⟩
          · rintro (he | ⟨t', q', ⟨-, he, rfl⟩, hlt⟩)
            · exact Or.inl he
            · exact Or.inr ⟨he, hlt⟩
  | results ot fin =>
    cases ot with
    | none => simp [handleDeepgramMessage] at h
    | some t =>
      by_cases ht : t = ""
      · simp [handleDeepgramMessage, ht] at h
      · by_cases hb : isBlank t
        · simp [handleDeepgramMessage, ht, hb] at h
        · simp [handleDeepgramMessage, ht, hb] at h
          subst h
          show (fin.getD false) = true ↔ _
          rcases fin with _ | b
          · simp
          · rcases b <;> simp
  | connected => simp [handleDeepgramMessage] at h
  | other => simp [handleDeepgramMessage] at h

/-- Witness for `delivered_fragment_finality`: an `'EndOfTurn'` message is
delivered as a final fragment. -/
theorem delivered_fragment_finality_witness :
    (⟨"hi", true⟩ : TranscriptMessage) ∈
      handleDeepgramMessage true (.turnInfo (some "hi") "EndOfTurn" none) ∧
    ((⟨"hi", true⟩ : TranscriptMessage).isFinal = true ↔
      ((∃ t c, DgMessage.turnInfo (some "hi") "EndOfTurn" none = .turnInfo t "EndOfTurn" c) ∨
       (∃ t q, DgMessage.turnInfo (some "hi") "EndOfTurn" none =
          .turnInfo t "Update" (some q) ∧ 1/2 < q) ∨
       (∃ t, DgMessage.turnInfo (some "hi") "EndOfTurn" none = .results t (some true)))) :=
  ⟨by decide, delivered_fragment_finality _ _ (by decide)⟩

/-! ## C10: file transcription keeps only the last usable fragment -/

/-- Transcript variable of the fold, expressed through the effective
texts. -/
theorem fileTranscript_fold (msgs : List DgMessage) :
    ∀ st : String × Bool,
      (msgs.foldl fileTranscriptStep st).fst =
        ((effectiveTexts msgs).getLast?).getD st.fst := by
  induction msgs with
  | nil => intro st; rfl
  | cons m ms ih =>
    intro st
    rw [List.foldl_cons, ih]
    cases m with
    | turnInfo ot e c =>
      cases ot with
      | none =>
        have heff : effectiveTexts (DgMessage.turnInfo none e c :: ms) =
            effectiveTexts ms := by
          simp [effectiveTexts, List.filterMap_cons]
        have hstep : fileTranscriptStep st (DgMessage.turnInfo none e c) = st := rfl
        rw [heff, hstep]
      | some t =>
        by_cases hb : isBlank t
        · have heff : effectiveTexts (DgMessage.turnInfo (some t) e c :: ms) =
              effectiveTexts ms := by
            simp [effectiveTexts, List.filterMap_cons, hb]
          have hstep : fileTranscriptStep st (DgMessage.turnInfo (some t) e c) = st := by
            simp [fileTranscriptStep, hb]
          rw [heff, hstep]
        · have heff : effectiveTexts (DgMessage.turnInfo (some t) e c :: ms) =
              t :: effectiveTexts ms := by
            simp [effectiveTexts, List.filterMap_cons, hb]
          have hstep : (fileTranscriptStep st (DgMessage.turnInfo (some t) e c)).fst = t := by
            simp [fileTranscriptStep, hb, apply_ite]
          rw [heff, hstep, getLastD_cons]
    | results ot fin =>
      cases ot with
      | none =>
        have heff : effectiveTexts (DgMessage.results none fin :: ms) =
            effectiveTexts ms := by
          simp [effectiveTexts, List.filterMap_cons]
        have hstep : fileTranscriptStep st (DgMessage.results none fin) = st := rfl
        rw [heff, hstep]
      | some t =>
        by_cases ht : t = ""
        · have heff : effectiveTexts (DgMessage.results (some t) fin :: ms) =
              effectiveTexts ms := by
            simp [effectiveTexts, List.filterMap_cons, ht]
          have hstep : fileTranscriptStep st (DgMessage.results (some t) fin) = st := by
            simp [fileTranscriptStep, ht]
          rw [heff, hstep]
        · by_cases hb : isBlank t
          · have heff : effectiveTexts (DgMessage.results (some t) fin :: ms) =
                effectiveTexts ms := by
              simp [effectiveTexts, List.filterMap_cons, ht, hb]
            have hstep : fileTranscriptStep st (DgMessage.results (some t) fin) = st := by
              simp [fileTranscriptStep, ht, hb]
            rw [heff, hstep]
          · have heff : effectiveTexts (DgMessage.results (some t) fin :: ms) =
                t :: effectiveTexts ms := by
              simp [effectiveTexts, List.filterMap_cons, ht, hb]
            have hstep : (fileTranscriptStep st (DgMessage.results (some t) fin)).fst = t := by
              simp [fileTranscriptStep, ht, hb, apply_ite]
            rw [heff, hstep, getLastD_cons]
    | connected =>
      have heff : effectiveTexts (DgMessage.connected :: ms) = effectiveTexts ms := by
        simp [effectiveTexts, List.filterMap_cons]
      have hstep : fileTranscriptStep st DgMessage.connected = st := rfl
      rw [heff, hstep]
    | other =>
      have heff : effectiveTexts (DgMessage.other :: ms) = effectiveTexts ms := by
        simp [effectiveTexts, List.filterMap_cons]
      have hstep : fileTranscriptStep st DgMessage.other = st := rfl
      rw [heff, hstep]

/-- Every effective text is non-blank. -/
theorem effectiveTexts_nonblank (msgs : List DgMessage) :
    ∀ t ∈ effectiveTexts msgs, isBlank t = false := by
  intro t ht
  rcases List.mem_filterMap.mp ht with ⟨m, _, hf⟩
  cases m with
  | turnInfo ot e c =>
    cases ot with
    | none => simp at hf
    | some u =>
      by_cases hb : isBlank u
      · simp [hb] at hf
      · simp [hb] at hf; subst hf; simpa using hb
  | results ot fin =>
    cases ot with
    | none => simp at hf
    | some u =>
      by_cases ht' : u = ""
      · simp [ht'] at hf
      · by_cases hb : isBlank u
        · simp [ht', hb] at hf
        · simp [ht', hb] at hf; subst hf; simpa using hb
  | connected => simp at hf
  | other => simp at hf

/-- Claim C10 is false as literally stated: a fragment with the non-empty
but whitespace-only text `' '` does not replace the accumulated
transcript.  After the fragments `'hello'` and `' '` the endpoint returns
`'hello'`, not the text of the last non-empty fragment. -/
theorem blank_fragment_does_not_replace :
    (" " : String) ≠ "" ∧
    (fileTranscriptResult
      [.turnInfo (some "hello") "EndOfTurn" none,
       .turnInfo (some " ") "EndOfTurn" none]).fst = "hello" ∧
    (fileTranscriptResult
      [.turnInfo (some "hello") "EndOfTurn" none,
       .turnInfo (some " ") "EndOfTurn" none]).fst ≠ " " := by
  decide

/-- Amended claim C10: every fragment whose text contains a non-whitespace
character (interim or final alike) replaces the accumulated transcript
variable, so the transcript returned when the socket closes equals the
text of the last such fragment — never a concatenation — and is the
fallback text `'No transcript received'` when no such fragment arrived. -/
theorem fileTranscript_returns_last_effective (msgs : List DgMessage) :
    (fileTranscriptResult msgs).fst =
      match (effectiveTexts msgs).getLast? with
      | some t => t
      | none => "No transcript received" := by
  have h := fileTranscript_fold msgs ("", false)
  unfold fileTranscriptResult
  rcases hl : (effectiveTexts msgs).getLast? with _ | t
  · simp [hl] at h
    simp [h]
  · simp [hl] at h
    have ht : isBlank t = false :=
      effectiveTexts_nonblank msgs t (mem_of_getLast?_eq hl)
    have hne : t ≠ "" := by
      intro hz; subst hz; simp [isBlank] at ht
    simp [h, hne]

/-! ## Sentence-splitting lemmas for `enforceSentenceLimit` -/

/-- A Boolean that is not true is false. -/
theorem bool_eq_false {b : Bool} (h : ¬ b = true) : b = false := by
  cases b
  · rfl
  · exact absurd rfl h

/-- Splitting the empty list gives one empty piece. -/
theorem splitFuel_nil : ∀ f, splitFuel f [] = [[]]
  | 0 => rfl
  | _ + 1 => rfl

/-- Unfolding of `splitFuel` at a match position. -/
theorem splitFuel_cons_pos (f : Nat) (c : Char) (rest : List Char)
    (hm : matchAt (c :: rest) = true) :
    splitFuel (f + 1) (c :: rest) = [] :: splitFuel f (afterMatch (c :: rest)) := by
  simp [splitFuel, hm]

/-- Unfolding of `splitFuel` away from a match position. -/
theorem splitFuel_cons_neg (f : Nat) (c : Char) (rest : List Char)
    (hm : matchAt (c :: rest) = false) :
    splitFuel (f + 1) (c :: rest) =
      match splitFuel f rest with
      | p :: ps => (c :: p) :: ps
      | [] => [[c]] := by
  simp [splitFuel, hm]

/-- The split is never the empty list of pieces. -/
theorem splitFuel_ne_nil : ∀ f cs, splitFuel f cs ≠ [] := by
  intro f cs
  match f, cs with
  | 0, cs => simp [splitFuel]
  | f + 1, [] => simp [splitFuel]
  | f + 1, c :: rest =>
    by_cases hm : matchAt (c :: rest) = true
    · rw [splitFuel_cons_pos f c rest hm]
      simp
    · rw [splitFuel_cons_neg f c rest (bool_eq_false hm)]
      rcases hsp : splitFuel f rest with _ | ⟨p, ps⟩ <;> simp

/-- Consuming a match shortens the list. -/
theorem afterMatch_length : ∀ (c : Char) (cs : List Char),
    (afterMatch (c :: cs)).length ≤ cs.length
  | _, [] => by simp [afterMatch, headSpace]
  | c, d :: cs' => by
    have hun : afterMatch (c :: d :: cs') =
        if headSpace (d :: cs') = true then (d :: cs').dropWhile isSpaceJS
        else afterMatch (d :: cs') := rfl
    rw [hun]
    by_cases hd : headSpace (d :: cs') = true
    · rw [if_pos hd]
      exact (List.dropWhile_sublist _).length_le
    · rw [if_neg hd]
      exact Nat.le_trans (afterMatch_length d cs') (by simp)

/-- Any sufficient fuel computes the same split. -/
theorem splitFuel_irrel : ∀ (f₁ : Nat) (cs : List Char) (f₂ : Nat),
    cs.length ≤ f₁ → cs.length ≤ f₂ → splitFuel f₁ cs = splitFuel f₂ cs := by
  intro f₁
  induction f₁ with
  | zero =>
    intro cs f₂ h₁ _
    have : cs = [] := List.length_eq_zero.mp (Nat.le_zero.mp h₁)
    subst this
    rw [splitFuel_nil, splitFuel_nil]
  | succ f₁' ih =>
    intro cs f₂ h₁ h₂
    cases cs with
    | nil => rw [splitFuel_nil, splitFuel_nil]
    | cons c rest =>
      cases f₂ with
      | zero => simp at h₂
      | succ f₂' =>
        have hr₁ : rest.length ≤ f₁' := Nat.le_of_succ_le_succ (by simpa using h₁)
        have hr₂ : rest.length ≤ f₂' := Nat.le_of_succ_le_succ (by simpa using h₂)
        by_cases hm : matchAt (c :: rest) = true
        · rw [splitFuel_cons_pos f₁' c rest hm, splitFuel_cons_pos f₂' c rest hm]
          have ha₁ : (afterMatch (c :: rest)).length ≤ f₁' :=
            Nat.le_trans (afterMatch_length c rest) hr₁
          have ha₂ : (afterMatch (c :: rest)).length ≤ f₂' :=
            Nat.le_trans (afterMatch_length c rest) hr₂
          rw [ih (afterMatch (c :: rest)) f₂' ha₁ ha₂]
        · rw [splitFuel_cons_neg f₁' c rest (bool_eq_false hm),
            splitFuel_cons_neg f₂' c rest (bool_eq_false hm),
            ih rest f₂' hr₁ hr₂]

/-- The first piece of the split is an initial segment of the input. -/
theorem splitFuel_first_initial : ∀ (f : Nat) (cs : List Char) (p : List Char)
    (ps : List (List Char)), splitFuel f cs = p :: ps → ∃ r, cs = p ++ r := by
  intro f
  induction f with
  | zero =>
    intro cs p ps h
    simp [splitFuel] at h
    exact ⟨[], by simp [h.1.symm]⟩
  | succ f' ih =>
    intro cs p ps h
    cases cs with
    | nil =>
      rw [splitFuel_nil] at h
      simp at h
      exact ⟨[], by simp [h.1.symm]⟩
    | cons c rest =>
      by_cases hm : matchAt (c :: rest) = true
      · rw [splitFuel_cons_pos f' c rest hm] at h
        injection h with h1 h2
        exact ⟨c :: rest, by simp [← h1]⟩
      · rw [splitFuel_cons_neg f' c rest (bool_eq_false hm)] at h
        rcases hsp : splitFuel f' rest with _ | ⟨p₀, ps₀⟩
        · exact absurd hsp (splitFuel_ne_nil f' rest)
        · rw [hsp] at h
          injection h with h1 h2
          rcases ih rest p₀ ps₀ hsp with ⟨r, hr⟩
          exact ⟨r, by simp [← h1, hr]⟩

/-- Shifting `cleanPiece` past a cons. -/
theorem cleanPiece_of_cons {c : Char} {cs : List Char}
    (h : cleanPiece (c :: cs)) : cleanPiece cs :=
  fun i => by have := h (i + 1); simpa using this

/-- Every piece of the split is clean: no suffix of a piece starts a match
of `/[.!?]+\s+/`. -/
theorem splitFuel_pieces_clean : ∀ (f : Nat) (cs : List Char), cs.length ≤ f →
    ∀ p ∈ splitFuel f cs, cleanPiece p := by
  intro f
  induction f with
  | zero =>
    intro cs h p hp
    have : cs = [] := List.length_eq_zero.mp (Nat.le_zero.mp h)
    subst this
    rw [splitFuel_nil] at hp
    simp at hp
    subst hp
    intro i
    simp [matchAt]
  | succ f' ih =>
    intro cs h p hp
    cases cs with
    | nil =>
      rw [splitFuel_nil] at hp
      simp at hp
      subst hp
      intro i
      simp [matchAt]
    | cons c rest =>
      have hr : rest.length ≤ f' := Nat.le_of_succ_le_succ (by simpa using h)
      by_cases hm : matchAt (c :: rest) = true
      · rw [splitFuel_cons_pos f' c rest hm] at hp
        rcases List.mem_cons.mp hp with hpe | hpm
        · subst hpe; intro i; simp [matchAt]
        · exact ih (afterMatch (c :: rest))
            (Nat.le_trans (afterMatch_length c rest) hr) p hpm
      · have hm' : matchAt (c :: rest) = false := bool_eq_false hm
        rw [splitFuel_cons_neg f' c rest hm'] at hp
        rcases hsp : splitFuel f' rest with _ | ⟨p₀, ps₀⟩
        · exact absurd hsp (splitFuel_ne_nil f' rest)
        · rw [hsp] at hp
          rcases List.mem_cons.mp hp with hpe | hpm
          · subst hpe
            intro i
            cases i with
            | succ i' =>
              have hcl : cleanPiece p₀ :=
                ih rest hr p₀ (hsp ▸ List.mem_cons_self _ _)
              simpa using hcl i'
            | zero =>
              show matchAt ((c :: p₀).drop 0) = false
              rw [List.drop_zero]
              by_cases hpc : isPunct c = true
              · have hparts : headSpace rest = false ∧ matchAt rest = false := by
                  have h2 := hm'
                  simp [matchAt, hpc] at h2
                  exact h2
                have hm0 : matchAt p₀ = false := by
                  have hcl : cleanPiece p₀ :=
                    ih rest hr p₀ (hsp ▸ List.mem_cons_self _ _)
                  simpa using hcl 0
                have hhs : headSpace p₀ = false := by
                  rcases splitFuel_first_initial f' rest p₀ ps₀ hsp with ⟨r, hrr⟩
                  cases p₀ with
                  | nil => rfl
                  | cons d p₀' =>
                    have hrest : rest = d :: (p₀' ++ r) := by simpa using hrr
                    have hds : headSpace rest = isSpaceJS d := by rw [hrest]; rfl
                    have hd : isSpaceJS d = false := by rw [← hds]; exact hparts.1
                    show isSpaceJS d = false
                    exact hd
                simp [matchAt, hpc, hm0, hhs]
              · simp [matchAt, bool_eq_false hpc]
          · exact ih rest hr p (hsp ▸ List.mem_cons_of_mem _ hpm)

/-- A leading empty piece followed by more pieces only arises at a match
position. -/
theorem splitFuel_first_nil_more : ∀ (f : Nat) (cs : List Char)
    (p : List Char) (l : List (List Char)),
    splitFuel f cs = [] :: p :: l → matchAt cs = true := by
  intro f cs p l h
  match f, cs with
  | 0, cs => simp [splitFuel] at h
  | f + 1, [] => rw [splitFuel_nil] at h; simp at h
  | f + 1, c :: rest =>
    by_cases hm : matchAt (c :: rest) = true
    · exact hm
    · rw [splitFuel_cons_neg f c rest (bool_eq_false hm)] at h
      rcases hsp : splitFuel f rest with _ | ⟨p₀, ps₀⟩
      · exact absurd hsp (splitFuel_ne_nil f rest)
      · rw [hsp] at h
        injection h with h1 _
        exact absurd h1.symm (by simp)

/-- No piece except the last ends in sentence punctuation. -/
theorem splitFuel_no_trail_punct : ∀ (f : Nat) (cs : List Char), cs.length ≤ f →
    ∀ p ∈ (splitFuel f cs).dropLast, lastNotPunct p := by
  intro f
  induction f with
  | zero =>
    intro cs h p hp
    have : cs = [] := List.length_eq_zero.mp (Nat.le_zero.mp h)
    subst this
    rw [splitFuel_nil] at hp
    simp at hp
  | succ f' ih =>
    intro cs h p hp
    cases cs with
    | nil =>
      rw [splitFuel_nil] at hp
      simp at hp
    | cons c rest =>
      have hr : rest.length ≤ f' := Nat.le_of_succ_le_succ (by simpa using h)
      by_cases hm : matchAt (c :: rest) = true
      · rw [splitFuel_cons_pos f' c rest hm] at hp
        have hlen : (afterMatch (c :: rest)).length ≤ f' :=
          Nat.le_trans (afterMatch_length c rest) hr
        rcases hsp : splitFuel f' (afterMatch (c :: rest)) with _ | ⟨q, qs⟩
        · exact absurd hsp (splitFuel_ne_nil f' _)
        · rw [hsp] at hp
          have : ([] : List Char) :: q :: qs ≠ [] := by simp
          rw [List.dropLast_cons_of_ne_nil (by simp)] at hp
          rcases List.mem_cons.mp hp with hpe | hpm
          · subst hpe
            intro x hx
            simp at hx
          · exact ih (afterMatch (c :: rest)) hlen p (by rw [hsp]; exact hpm)
      · have hm' : matchAt (c :: rest) = false := bool_eq_false hm
        rw [splitFuel_cons_neg f' c rest hm'] at hp
        rcases hsp : splitFuel f' rest with _ | ⟨p₀, ps₀⟩
        · exact absurd hsp (splitFuel_ne_nil f' rest)
        · rw [hsp] at hp
          cases ps₀ with
          | nil => simp at hp
          | cons p₁ ps₁ =>
            rw [List.dropLast_cons_of_ne_nil (by simp)] at hp
            rcases List.mem_cons.mp hp with hpe | hpm
            · subst hpe
              intro x hx
              cases p₀ with
              | nil =>
                have hrm : matchAt rest = true :=
                  splitFuel_first_nil_more f' rest p₁ ps₁ hsp
                have hcp : isPunct c = false := by
                  by_contra hcc
                  have hcc' : isPunct c = true := by
                    cases hcb : isPunct c
                    · exact absurd hcb hcc
                    · rfl
                  have : matchAt (c :: rest) = true := by
                    simp [matchAt, hcc', hrm]
                  rw [this] at hm'
                  exact absurd hm' (by simp)
                have hcx : c = x := by simpa using hx
                exact hcx ▸ hcp
              | cons d p₀' =>
                have hx' : (d :: p₀').getLast? = some x := by
                  rw [← hx]
                  exact List.getLast?_cons_cons.symm
                have hmem : (d :: p₀') ∈ (splitFuel f' rest).dropLast := by
                  rw [hsp]
                  rw [List.dropLast_cons_of_ne_nil (by simp)]
                  exact List.mem_cons_self _ _
                exact ih rest hr (d :: p₀') hmem x hx'
            · have hmem : p ∈ (splitFuel f' rest).dropLast := by
                rw [hsp]
                rw [List.dropLast_cons_of_ne_nil (by simp)]
                exact List.mem_cons_of_mem _ hpm
              exact ih rest hr p hmem

/-- The head of a `dropWhile isSpaceJS` result is not whitespace. -/
theorem dropWhile_headNotSpace : ∀ l : List Char, headNotSpace (l.dropWhile isSpaceJS)
  | [] => by intro d hd; simp [List.dropWhile] at hd
  | e :: l' => by
    intro d hd
    by_cases he : isSpaceJS e = true
    · rw [List.dropWhile_cons_of_pos he] at hd
      exact dropWhile_headNotSpace l' d hd
    · rw [List.dropWhile_cons_of_neg he] at hd
      have : d = e := by simpa using hd.symm
      subst this
      exact bool_eq_false he

/-- What remains after a match never starts with whitespace. -/
theorem afterMatch_headNotSpace : ∀ cs : List Char, headNotSpace (afterMatch cs)
  | [] => by intro d hd; simp [afterMatch] at hd
  | c :: cs => by
    intro d hd
    have hun : afterMatch (c :: cs) =
        if headSpace cs = true then cs.dropWhile isSpaceJS else afterMatch cs := rfl
    rw [hun] at hd
    by_cases hs : headSpace cs = true
    · rw [if_pos hs] at hd
      exact dropWhile_headNotSpace cs d hd
    · rw [if_neg hs] at hd
      exact afterMatch_headNotSpace cs d hd

/-- Heads of pieces: when the input does not start with whitespace, no
piece starts with whitespace; and unconditionally no piece after the first
starts with whitespace (it begins right after a consumed whitespace run). -/
theorem splitFuel_heads : ∀ f : Nat,
    (∀ cs, cs.length ≤ f → headNotSpace cs →
      ∀ p ∈ splitFuel f cs, headNotSpace p) ∧
    (∀ cs, cs.length ≤ f → ∀ p ∈ (splitFuel f cs).tail, headNotSpace p) := by
  intro f
  induction f with
  | zero =>
    constructor
    · intro cs h hcs p hp
      have : cs = [] := List.length_eq_zero.mp (Nat.le_zero.mp h)
      subst this
      rw [splitFuel_nil] at hp
      simp at hp
      subst hp
      intro d hd
      simp at hd
    · intro cs h p hp
      have : cs = [] := List.length_eq_zero.mp (Nat.le_zero.mp h)
      subst this
      rw [splitFuel_nil] at hp
      simp at hp
  | succ f' ih =>
    constructor
    · intro cs h hcs p hp
      cases cs with
      | nil =>
        rw [splitFuel_nil] at hp
        simp at hp
        subst hp
        intro d hd
        simp at hd
      | cons c rest =>
        have hr : rest.length ≤ f' := Nat.le_of_succ_le_succ (by simpa using h)
        by_cases hm : matchAt (c :: rest) = true
        · rw [splitFuel_cons_pos f' c rest hm] at hp
          rcases List.mem_cons.mp hp with hpe | hpm
          · subst hpe; intro d hd; simp at hd
          · exact (ih.1 (afterMatch (c :: rest))
              (Nat.le_trans (afterMatch_length c rest) hr)
              (afterMatch_headNotSpace _)) p hpm
        · rw [splitFuel_cons_neg f' c rest (bool_eq_false hm)] at hp
          rcases hsp : splitFuel f' rest with _ | ⟨p₀, ps₀⟩
          · exact absurd hsp (splitFuel_ne_nil f' rest)
          · rw [hsp] at hp
            rcases List.mem_cons.mp hp with hpe | hpm
            · subst hpe
              intro d hd
              have hdc : c = d := by simpa using hd
              exact hdc ▸ hcs c rfl
            · have : p ∈ (splitFuel f' rest).tail := by rw [hsp]; exact hpm
              exact ih.2 rest hr p this
    · intro cs h p hp
      cases cs with
      | nil =>
        rw [splitFuel_nil] at hp
        simp at hp
      | cons c rest =>
        have hr : rest.length ≤ f' := Nat.le_of_succ_le_succ (by simpa using h)
        by_cases hm : matchAt (c :: rest) = true
        · rw [splitFuel_cons_pos f' c rest hm] at hp
          have hp' : p ∈ splitFuel f' (afterMatch (c :: rest)) := hp
          exact (ih.1 (afterMatch (c :: rest))
            (Nat.le_trans (afterMatch_length c rest) hr)
            (afterMatch_headNotSpace _)) p hp'
        · rw [splitFuel_cons_neg f' c rest (bool_eq_false hm)] at hp
          rcases hsp : splitFuel f' rest with _ | ⟨p₀, ps₀⟩
          · exact absurd hsp (splitFuel_ne_nil f' rest)
          · rw [hsp] at hp
            have : p ∈ (splitFuel f' rest).tail := by rw [hsp]; exact hp
            exact ih.2 rest hr p this

/-- A clean list is returned as a single piece. -/
theorem splitFuel_clean : ∀ (f : Nat) (q : List Char), q.length ≤ f →
    cleanPiece q → splitFuel f q = [q] := by
  intro f
  induction f with
  | zero =>
    intro q h _
    have : q = [] := List.length_eq_zero.mp (Nat.le_zero.mp h)
    subst this
    rfl
  | succ f' ih =>
    intro q h hq
    cases q with
    | nil => exact splitFuel_nil _
    | cons c rest =>
      have hm : matchAt (c :: rest) = false := by simpa using hq 0
      rw [splitFuel_cons_neg f' c rest hm]
      rw [ih rest (Nat.le_of_succ_le_succ (by simpa using h)) (cleanPiece_of_cons hq)]

/-- Appending a period cannot create a match where none was. -/
theorem matchAt_append_dot : ∀ u : List Char, matchAt u = false →
    matchAt (u ++ ['.']) = false
  | [], _ => by decide
  | c :: u', h => by
    show matchAt (c :: (u' ++ ['.'])) = false
    by_cases hpc : isPunct c = true
    · have hparts : headSpace u' = false ∧ matchAt u' = false := by
        simp [matchAt, hpc] at h
        exact h
      have hhs : headSpace (u' ++ ['.']) = false := by
        cases u' with
        | nil => decide
        | cons d u'' => simpa [headSpace] using hparts.1
      simp [matchAt, hpc, hhs, matchAt_append_dot u' hparts.2]
    · simp [matchAt, bool_eq_false hpc]

/-- A clean piece stays clean when a period is appended. -/
theorem cleanPiece_append_dot {q : List Char} (hq : cleanPiece q) :
    cleanPiece (q ++ ['.']) := by
  intro i
  rw [List.drop_append_eq_append_drop]
  rcases le_or_lt i q.length with hle | hlt
  · have : i - q.length = 0 := Nat.sub_eq_zero_of_le hle
    rw [this, List.drop_zero]
    exact matchAt_append_dot (q.drop i) (hq i)
  · have h1 : q.drop i = [] := List.drop_eq_nil_of_le (Nat.le_of_lt hlt)
    have h2 : (['.'] : List Char).drop (i - q.length) = [] := by
      apply List.drop_eq_nil_of_le
      simp
      omega
    rw [h1, h2]
    rfl

/-- A clean piece with a non-punctuation last character starts no match
even with a period-space separator appended. -/
theorem matchAt_sep_append : ∀ (q T : List Char), cleanPiece q →
    lastNotPunct q → q ≠ [] → matchAt (q ++ '.' :: ' ' :: T) = false
  | [], _, _, _, h => absurd rfl h
  | [c], T, _, hlast, _ => by
    have hc : isPunct c = false := hlast c rfl
    show matchAt (c :: '.' :: ' ' :: T) = false
    simp [matchAt, hc]
  | c :: c' :: q'', T, hc, hlast, _ => by
    have hlast' : lastNotPunct (c' :: q'') := by
      intro x hx
      apply hlast x
      rw [List.getLast?_cons_cons]
      exact hx
    have ihm := matchAt_sep_append (c' :: q'') T (cleanPiece_of_cons hc) hlast' (by simp)
    show matchAt (c :: ((c' :: q'') ++ '.' :: ' ' :: T)) = false
    by_cases hpc : isPunct c = true
    · have hcs : isSpaceJS c' = false := by
        by_contra hcon
        have hcon' : isSpaceJS c' = true := by
          cases hcb : isSpaceJS c'
          · exact absurd hcb hcon
          · rfl
        have : matchAt (c :: c' :: q'') = true := by
          simp [matchAt, hpc, headSpace, hcon']
        have h0 := hc 0
        rw [List.drop_zero] at h0
        rw [this] at h0
        exact absurd h0 (by simp)
      have hhs : headSpace ((c' :: q'') ++ '.' :: ' ' :: T) = false := by
        simpa [headSpace] using hcs
      show (isPunct c &&
        (headSpace ((c' :: q'') ++ '.' :: ' ' :: T) ||
         matchAt ((c' :: q'') ++ '.' :: ' ' :: T))) = false
      rw [hhs, ihm]
      simp
    · show (isPunct c &&
        (headSpace ((c' :: q'') ++ '.' :: ' ' :: T) ||
         matchAt ((c' :: q'') ++ '.' :: ' ' :: T))) = false
      rw [bool_eq_false hpc]
      simp

/-- `dropWhile` does nothing on a list that does not start with
whitespace. -/
theorem dropWhile_of_headNotSpace {T : List Char} (h : headNotSpace T) :
    T.dropWhile isSpaceJS = T := by
  cases T with
  | nil => rfl
  | cons d T' =>
    have : isSpaceJS d = false := h d rfl
    rw [List.dropWhile_cons_of_neg (by simp [this])]

/-- Splitting `piece ++ '. ' ++ rest` peels off exactly the piece when the
piece is clean, does not end in punctuation, and the rest does not start
with whitespace. -/
theorem splitFuel_join : ∀ (q : List Char) (f : Nat) (T : List Char),
    cleanPiece q → lastNotPunct q → T ≠ [] → headNotSpace T →
    (q ++ '.' :: ' ' :: T).length ≤ f →
    splitFuel f (q ++ '.' :: ' ' :: T) = q :: splitFuel T.length T := by
  intro q
  induction q with
  | nil =>
    intro f T _ _ hTne hThd hlen
    simp only [List.nil_append] at hlen ⊢
    cases f with
    | zero => simp at hlen
    | succ f' =>
      have h2 : headSpace (' ' :: T) = true := rfl
      have hm : matchAt ('.' :: ' ' :: T) = true := by
        show (isPunct '.' && (headSpace (' ' :: T) || matchAt (' ' :: T))) = true
        rw [h2]
        simp only [Bool.true_or, Bool.and_true]
        decide
      rw [splitFuel_cons_pos f' _ _ hm]
      have ham : afterMatch ('.' :: ' ' :: T) = T := by
        show (if headSpace (' ' :: T) = true then (' ' :: T).dropWhile isSpaceJS
          else afterMatch (' ' :: T)) = T
        rw [if_pos h2]
        rw [List.dropWhile_cons_of_pos (by decide)]
        exact dropWhile_of_headNotSpace hThd
      rw [ham]
      rw [splitFuel_irrel f' T T.length (by simp at hlen; omega) (Nat.le_refl _)]
  | cons c q' ih =>
    intro f T hc hlast hTne hThd hlen
    cases f with
    | zero => simp at hlen
    | succ f' =>
      have hm : matchAt ((c :: q') ++ '.' :: ' ' :: T) = false :=
        matchAt_sep_append (c :: q') T hc hlast (by simp)
      have hm' : matchAt (c :: (q' ++ '.' :: ' ' :: T)) = false := by
        simpa using hm
      show splitFuel (f' + 1) (c :: (q' ++ '.' :: ' ' :: T)) = _
      rw [splitFuel_cons_neg f' _ _ hm']
      have hlast' : lastNotPunct q' := by
        cases q' with
        | nil => intro x hx; simp at hx
        | cons y q'' =>
          intro x hx
          apply hlast x
          rw [List.getLast?_cons_cons]
          exact hx
      have hrec := ih f' T (cleanPiece_of_cons hc) hlast' hTne hThd
        (by simp at hlen ⊢; omega)
      rw [hrec]

/-- Head of an append with a non-empty left part. -/
theorem head?_append_left {α : Type _} (l₁ l₂ : List α) (h : l₁ ≠ []) :
    (l₁ ++ l₂).head? = l₁.head? := by
  cases l₁ with
  | nil => exact absurd rfl h
  | cons a l => rfl

/-- A join starting from a non-empty piece is non-empty. -/
theorem joinDot_cons_ne_nil : ∀ (q : List Char) (qs : List (List Char)),
    q ≠ [] → joinDot (q :: qs) ≠ [] := by
  intro q qs hq
  cases qs with
  | nil => simpa [joinDot] using hq
  | cons q' qs' =>
    show q ++ '.' :: ' ' :: joinDot (q' :: qs') ≠ []
    simp

/-- Head of a join. -/
theorem joinDot_head? : ∀ (q : List Char) (qs : List (List Char)), q ≠ [] →
    (joinDot (q :: qs)).head? = q.head? := by
  intro q qs hq
  cases qs with
  | nil => rfl
  | cons q' qs' =>
    show (q ++ '.' :: ' ' :: joinDot (q' :: qs')).head? = q.head?
    exact head?_append_left _ _ hq

/-- Last element of a join: the last character of the last piece. -/
theorem joinDot_getLast? : ∀ (qs : List (List Char)), (∀ x ∈ qs, x ≠ []) →
    ∀ q, qs.getLast? = some q → (joinDot qs).getLast? = q.getLast?
  | [], _, q, h => by simp at h
  | [q₀], _, q, h => by
    have : q₀ = q := by simpa using h
    subst this
    rfl
  | q₀ :: q₁ :: qs', hne, q, h => by
    have hlast' : (q₁ :: qs').getLast? = some q := by
      rw [← h]; exact List.getLast?_cons_cons.symm
    have hJne : joinDot (q₁ :: qs') ≠ [] :=
      joinDot_cons_ne_nil q₁ qs' (hne q₁ (by simp))
    have ih := joinDot_getLast? (q₁ :: qs')
      (fun x hx => hne x (List.mem_cons_of_mem _ hx)) q hlast'
    show (q₀ ++ '.' :: ' ' :: joinDot (q₁ :: qs')).getLast? = q.getLast?
    rw [List.getLast?_append_of_ne_nil q₀ (by simp)]
    rw [show ('.' :: ' ' :: joinDot (q₁ :: qs') : List Char) =
      ['.', ' '] ++ joinDot (q₁ :: qs') from rfl]
    rw [List.getLast?_append_of_ne_nil _ hJne]
    exact ih

/-- Splitting the joined-and-terminated truncation recovers the pieces:
all but the last unchanged, the last with the appended period. -/
theorem mainSplit : ∀ (qs : List (List Char)), qs ≠ [] →
    (∀ x ∈ qs, cleanPiece x) → (∀ x ∈ qs, lastNotPunct x) →
    (∀ x ∈ qs, x ≠ []) → (∀ x ∈ qs.tail, headNotSpace x) →
    ∀ q, qs.getLast? = some q →
    splitSentences (joinDot qs ++ ['.']) = qs.dropLast ++ [q ++ ['.']]
  | [], h, _, _, _, _, _, _ => absurd rfl h
  | [q₀], _, hclean, _, _, _, q, hlast => by
    have : q₀ = q := by simpa using hlast
    subst this
    show splitSentences (q₀ ++ ['.']) = [] ++ [q₀ ++ ['.']]
    rw [List.nil_append]
    exact splitFuel_clean _ _ (Nat.le_refl _)
      (cleanPiece_append_dot (hclean q₀ (by simp)))
  | q₀ :: q₁ :: qs', _, hclean, hlastp, hne, htail, q, hlast => by
    have hq₁ne : q₁ ≠ [] := hne q₁ (by simp)
    have hJne : joinDot (q₁ :: qs') ≠ [] := joinDot_cons_ne_nil q₁ qs' hq₁ne
    have hlast' : (q₁ :: qs').getLast? = some q := by
      rw [← hlast]; exact List.getLast?_cons_cons.symm
    have hshape : joinDot (q₀ :: q₁ :: qs') ++ ['.'] =
        q₀ ++ '.' :: ' ' :: (joinDot (q₁ :: qs') ++ ['.']) := by
      show (q₀ ++ '.' :: ' ' :: joinDot (q₁ :: qs')) ++ ['.'] = _
      simp [List.append_assoc]
    have hThd : headNotSpace (joinDot (q₁ :: qs') ++ ['.']) := by
      intro d hd
      rw [head?_append_left _ _ hJne] at hd
      rw [joinDot_head? q₁ qs' hq₁ne] at hd
      exact htail q₁ (by simp) d hd
    have hTne : joinDot (q₁ :: qs') ++ ['.'] ≠ [] := by simp
    have ih := mainSplit (q₁ :: qs') (by simp)
      (fun x hx => hclean x (List.mem_cons_of_mem _ hx))
      (fun x hx => hlastp x (List.mem_cons_of_mem _ hx))
      (fun x hx => hne x (List.mem_cons_of_mem _ hx))
      (fun x hx => htail x (List.mem_cons_of_mem _ hx))
      q hlast'
    show splitSentences (joinDot (q₀ :: q₁ :: qs') ++ ['.']) =
      q₀ :: ((q₁ :: qs').dropLast ++ [q ++ ['.']])
    rw [hshape]
    show splitFuel (q₀ ++ '.' :: ' ' :: (joinDot (q₁ :: qs') ++ ['.'])).length
      (q₀ ++ '.' :: ' ' :: (joinDot (q₁ :: qs') ++ ['.'])) = _
    rw [splitFuel_join q₀ _ (joinDot (q₁ :: qs') ++ ['.'])
      (hclean q₀ (by simp)) (hlastp q₀ (by simp)) hTne hThd (Nat.le_refl _)]
    rw [show splitFuel (joinDot (q₁ :: qs') ++ ['.']).length
      (joinDot (q₁ :: qs') ++ ['.']) =
      splitSentences (joinDot (q₁ :: qs') ++ ['.']) from rfl]
    rw [ih]

/-- Recovering a character list from its string. -/
theorem toList_stringMk (l : List Char) : (String.mk l).toList = l := rfl

/-- Tail membership of a take. -/
theorem mem_tail_take {α : Type _} : ∀ (l : List α) (k : Nat) (x : α),
    x ∈ (l.take k).tail → x ∈ l.tail
  | [], k, x, hx => by simp at hx
  | a :: l', 0, x, hx => by simp at hx
  | a :: l', k + 1, x, hx => by
    have h : (a :: l').take (k + 1) = a :: l'.take k := rfl
    rw [h] at hx
    exact List.take_subset k l' hx

/-! ## C4: the sentence limit -/

/-- Claim C4 is false as stated for `maxSentences = 0` (reachable through
the `/summarize` request body): the text `'a. b'` has two sentences —
more than zero — but the truncation produces `'.'`, which contains one
sentence, not zero. -/
theorem sentence_limit_zero_not_exact :
    sentenceCount "a. b" = 2 ∧
    enforceSentenceLimit "a. b" 0 = "." ∧
    sentenceCount (enforceSentenceLimit "a. b" 0) = 1 := by
  decide

/-- Amended claim C4: for every `maxSentences` at least 1, a text with
more than `maxSentences` sentences is post-processed to a result with
exactly `maxSentences` sentences that ends in terminal punctuation, while
a text with at most `maxSentences` sentences is returned unchanged
(sentences counted, as the code counts them, by splitting on
`/[.!?]+\s+/` and discarding blank pieces). -/
theorem enforceSentenceLimit_spec (text : String) (k : Nat) :
    (sentenceCount text ≤ k → enforceSentenceLimit text k = text) ∧
    (1 ≤ k → k < sentenceCount text →
      sentenceCount (enforceSentenceLimit text k) = k ∧
      endsInTerminal (enforceSentenceLimit text k) = true) := by
  constructor
  · intro hle
    by_cases htext : text = ""
    · subst htext; rfl
    · unfold enforceSentenceLimit
      rw [if_neg htext]
      show (if (sentencesOf text.toList).length ≤ k then text else _) = text
      have hle' : (sentencesOf text.toList).length ≤ k := hle
      rw [if_pos hle']
  · intro hk hlt
    have htext : text ≠ "" := by
      intro h
      subst h
      have h0 : sentenceCount "" = 0 := rfl
      omega
    have hlen : ¬ (sentencesOf text.toList).length ≤ k := by
      have h0 : sentenceCount text = (sentencesOf text.toList).length := rfl
      omega
    have hmem_split : ∀ x ∈ (sentencesOf text.toList).take k,
        x ∈ splitSentences text.toList := fun x hx =>
      List.mem_of_mem_filter (List.take_subset k _ hx)
    have hclean : ∀ x ∈ (sentencesOf text.toList).take k, cleanPiece x := fun x hx =>
      splitFuel_pieces_clean text.toList.length text.toList (Nat.le_refl _) x
        (hmem_split x hx)
    have hnons : ∀ x ∈ (sentencesOf text.toList).take k, hasNonSpace x = true :=
      fun x hx => List.of_mem_filter (List.take_subset k _ hx)
    have hxne : ∀ x ∈ (sentencesOf text.toList).take k, x ≠ [] := by
      intro x hx h
      have hn := hnons x hx
      rw [h] at hn
      simp [hasNonSpace] at hn
    have hlastp : ∀ x ∈ (sentencesOf text.toList).take k, lastNotPunct x := by
      intro x hx
      have h2 : (sentencesOf text.toList).take k =
          ((sentencesOf text.toList).take ((sentencesOf text.toList).length - 1)).take k := by
        rw [List.take_take]
        congr 1
        omega
      have h1 : x ∈ (sentencesOf text.toList).dropLast := by
        rw [h2, ← List.dropLast_eq_take] at hx
        exact List.take_subset k _ hx
      have h3 : x ∈ (splitSentences text.toList).dropLast :=
        mem_dropLast_of_sublist (List.filter_sublist _) h1
      exact splitFuel_no_trail_punct text.toList.length text.toList (Nat.le_refl _) x h3
    have htailh : ∀ x ∈ ((sentencesOf text.toList).take k).tail, headNotSpace x := by
      intro x hx
      have h1 : x ∈ (sentencesOf text.toList).tail := mem_tail_take _ k x hx
      exact (splitFuel_heads text.toList.length).2 text.toList (Nat.le_refl _) x
        (mem_tail_of_sublist (List.filter_sublist _) h1)
    have htklen : ((sentencesOf text.toList).take k).length = k := by
      rw [List.length_take]
      omega
    have htkne : (sentencesOf text.toList).take k ≠ [] := by
      intro h
      rw [h] at htklen
      simp at htklen
      omega
    rcases hql : ((sentencesOf text.toList).take k).getLast? with _ | qk
    · exact absurd (List.getLast?_eq_none_iff.mp hql) htkne
    · have hqk_mem : qk ∈ (sentencesOf text.toList).take k := mem_of_getLast?_eq hql
      have hqkne : qk ≠ [] := hxne qk hqk_mem
      have hends : endsPunct (joinDot ((sentencesOf text.toList).take k)) = false := by
        have h1 : (joinDot ((sentencesOf text.toList).take k)).getLast? = qk.getLast? :=
          joinDot_getLast? _ hxne qk hql
        rcases hqlast : qk.getLast? with _ | y
        · exact absurd (List.getLast?_eq_none_iff.mp hqlast) hqkne
        · unfold endsPunct
          rw [h1, hqlast]
          exact hlastp qk hqk_mem y hqlast
      have hres : enforceSentenceLimit text k =
          String.mk (joinDot ((sentencesOf text.toList).take k) ++ ['.']) := by
        unfold enforceSentenceLimit
        rw [if_neg htext]
        show (if (sentencesOf text.toList).length ≤ k then text
          else if endsPunct (joinDot ((sentencesOf text.toList).take k)) then
            String.mk (joinDot ((sentencesOf text.toList).take k))
          else String.mk (joinDot ((sentencesOf text.toList).take k) ++ ['.'])) = _
        have hnotend :
            ¬ endsPunct (joinDot ((sentencesOf text.toList).take k)) = true := by
          rw [hends]; simp
        rw [if_neg hlen, if_neg hnotend]
      have hsplit := mainSplit ((sentencesOf text.toList).take k) htkne hclean hlastp
        hxne htailh qk hql
      have hlastns : hasNonSpace (qk ++ ['.']) = true := by
        show ((qk ++ ['.']).any fun c => !isSpaceJS c) = true
        rw [List.any_append]
        rw [show (qk.any fun c => !isSpaceJS c) = true from hnons qk hqk_mem]
        simp
      have hcount : sentenceCount (String.mk
          (joinDot ((sentencesOf text.toList).take k) ++ ['.'])) = k := by
        show ((splitSentences (String.mk
          (joinDot ((sentencesOf text.toList).take k) ++ ['.'])).toList).filter
            hasNonSpace).length = k
        rw [toList_stringMk, hsplit, List.filter_append]
        rw [List.filter_eq_self.mpr
          (fun x hx => hnons x (List.dropLast_subset _ hx))]
        rw [List.filter_eq_self.mpr (by
          intro x hx
          have : x = qk ++ ['.'] := by simpa using hx
          rw [this]
          exact hlastns)]
        rw [List.length_append, List.length_dropLast, htklen]
        simp
        omega
      have hterm : endsInTerminal (String.mk
          (joinDot ((sentencesOf text.toList).take k) ++ ['.'])) = true := by
        show endsPunct (joinDot ((sentencesOf text.toList).take k) ++ ['.']) = true
        unfold endsPunct
        rw [List.getLast?_append_of_ne_nil _ (by simp : (['.'] : List Char) ≠ [])]
        decide
      rw [hres]
      exact ⟨hcount, hterm⟩

/-- Witness for `enforceSentenceLimit_spec`: a three-sentence text is
returned unchanged for limit 5 and truncated to exactly two terminated
sentences for limit 2. -/
theorem enforceSentenceLimit_spec_witness :
    sentenceCount "One. Two. Three." = 3 ∧
    enforceSentenceLimit "One. Two. Three." 5 = "One. Two. Three." ∧
    sentenceCount (enforceSentenceLimit "One. Two. Three." 2) = 2 ∧
    endsInTerminal (enforceSentenceLimit "One. Two. Three." 2) = true :=
  ⟨by decide,
   (enforceSentenceLimit_spec "One. Two. Three." 5).1 (by decide),
   ((enforceSentenceLimit_spec "One. Two. Three." 2).2 (by decide) (by decide)).1,
   ((enforceSentenceLimit_spec "One. Two. Three." 2).2 (by decide) (by decide)).2⟩
